import Mathlib

/-!
Verification of the CSV-ingestion / aggregation / artifact-writing core of
the wifi-ter-sim plotting scripts.

Numeric model: a float series is a `List (Option ℚ)`; `none` stands for a
non-finite entry (NaN), `some q` for a finite value.  Dropping NaNs
(`Series.dropna`, `np.isfinite` filtering) becomes `List.filterMap id`.
Square roots force results into `ℝ`, so statistics that need them are
real-valued; everything that the scripts compute with rational arithmetic
stays in `ℚ`.
-/

/-- Finite values of a series: models `pandas.Series.dropna()` /
`v[np.isfinite(v)]` on a float series. -/
def finiteVals (xs : List (Option ℚ)) : List ℚ :=
  xs.filterMap id

/-- Embedding of `jain_index` from `scripts/plot_p8.py`:
keep finite values, return NaN (`none`) on an empty set or when the sum of
squares is `≤ 0`, otherwise `(Σv)² / (n · Σv²)`. -/
def jain_index (xs : List (Option ℚ)) : Option ℚ :=
  let v := finiteVals xs
  if v.length = 0 then none
  else
    let s := v.sum
    let ss := (v.map (fun x => x * x)).sum
    if ss ≤ 0 then none
    else some (s * s / ((v.length : ℚ) * ss))

/-- Cauchy–Schwarz for lists: the square of the sum is at most the length
times the sum of squares. -/
lemma list_sq_sum_le (l : List ℚ) :
    l.sum * l.sum ≤ (l.length : ℚ) * (l.map (fun x => x * x)).sum := by
  have h := sq_sum_le_card_mul_sum_sq
    (s := (Finset.univ : Finset (Fin l.length))) (f := fun i => l.get i)
  have hsum : l.sum = ∑ i : Fin l.length, l.get i := by
    conv_lhs => rw [← List.ofFn_get l]
    exact List.sum_ofFn
  have hsq : (l.map (fun x => x * x)).sum = ∑ i : Fin l.length, l.get i * l.get i := by
    conv_lhs => rw [← List.ofFn_get l, List.map_ofFn]
    exact List.sum_ofFn
  rw [hsum, hsq]
  have := h
  simp only [Finset.card_univ, Fintype.card_fin, sq] at this
  simpa [sq] using this

/-- All-`some c` lists drop to a replicate of `c`. -/
lemma finiteVals_all_eq (xs : List (Option ℚ)) (c : ℚ)
    (h : ∀ x ∈ xs, x = some c) :
    finiteVals xs = List.replicate xs.length c := by
  induction xs with
  | nil => simp [finiteVals]
  | cons a t ih =>
    have ha : a = some c := h a (by simp)
    have ht : ∀ x ∈ t, x = some c := fun x hx => h x (by simp [hx])
    simp [finiteVals, ha, List.replicate_succ] at ih ⊢
    exact ih ht

/-- C2: the Jain fairness index is exactly `1` on a non-empty list of equal
positive values, `1/n` when exactly one of `n` finite values is non-zero,
and NaN (`none`) on an empty input or when every finite value is zero. -/
theorem jain_index_characteristic_values :
    (∀ (xs : List (Option ℚ)) (c : ℚ), xs ≠ [] → 0 < c →
        (∀ x ∈ xs, x = some c) → jain_index xs = some 1) ∧
    (∀ (a b : ℕ) (v : ℚ), v ≠ 0 →
        jain_index (List.replicate a (some 0) ++ some v :: List.replicate b (some 0)) =
          some (1 / ((a : ℚ) + b + 1))) ∧
    (∀ xs : List (Option ℚ), (∀ q : ℚ, some q ∈ xs → q = 0) →
        jain_index xs = none) := by
  refine ⟨?_, ?_, ?_⟩
  · intro xs c hne hc hall
    have hv : finiteVals xs = List.replicate xs.length c :=
      finiteVals_all_eq xs c hall
    have hn : 0 < xs.length := List.length_pos.mpr hne
    have hlen : (finiteVals xs).length = xs.length := by simp [hv]
    have hsum : (finiteVals xs).sum = (xs.length : ℚ) * c := by
      simp [hv, List.sum_replicate, nsmul_eq_mul]
    have hss : ((finiteVals xs).map (fun x => x * x)).sum = (xs.length : ℚ) * (c * c) := by
      simp [hv, List.map_replicate, List.sum_replicate, nsmul_eq_mul]
    have hsspos : (0 : ℚ) < (xs.length : ℚ) * (c * c) := by positivity
    simp only [jain_index, hlen, hsum, hss, Nat.pos_iff_ne_zero.mp hn,
      if_false, not_le.mpr hsspos]
    congr 1
    have hL : ((xs.length : ℚ)) ≠ 0 := by positivity
    field_simp
    ring
  · intro a b v hv
    set xs := List.replicate a (some (0 : ℚ)) ++ some v :: List.replicate b (some 0) with hxs
    have hfv : finiteVals xs = List.replicate a (0 : ℚ) ++ v :: List.replicate b 0 := by
      simp only [hxs, finiteVals, List.filterMap_append, List.filterMap_cons]
      congr 1
      · induction a with
        | zero => simp
        | succ k ih => simp [List.replicate_succ, ih]
      · simp only [id]
        congr 1
        induction b with
        | zero => simp
        | succ k ih => simp [List.replicate_succ, ih]
    have hlen : (finiteVals xs).length = a + b + 1 := by
      simp [hfv]; omega
    have hsum : (finiteVals xs).sum = v := by
      simp [hfv, List.sum_append, List.sum_replicate]
    have hss : ((finiteVals xs).map (fun x => x * x)).sum = v * v := by
      simp [hfv, List.map_append, List.map_replicate, List.sum_append, List.sum_replicate]
    have hvv : (0 : ℚ) < v * v := mul_self_pos.mpr hv
    simp only [jain_index]
    rw [hlen, hsum, hss, if_neg (by omega), if_neg (not_le.mpr hvv)]
    congr 1
    have : ((a + b + 1 : ℕ) : ℚ) = (a : ℚ) + b + 1 := by push_cast; ring
    rw [this]
    have hd : ((a : ℚ) + b + 1) ≠ 0 := by positivity
    field_simp
    ring
  · intro xs hz
    have hzv : ∀ x ∈ finiteVals xs, x = (0 : ℚ) := by
      intro x hx
      simp only [finiteVals, List.mem_filterMap, id] at hx
      obtain ⟨o, ho, hox⟩ := hx
      subst hox
      exact hz x ho
    by_cases h0 : (finiteVals xs).length = 0
    · simp [jain_index, h0]
    · have hss : ((finiteVals xs).map (fun x => x * x)).sum = 0 := by
        apply List.sum_eq_zero
        intro y hy
        simp only [List.mem_map] at hy
        obtain ⟨x, hx, hxy⟩ := hy
        rw [← hxy, hzv x hx, mul_zero]
      simp [jain_index, h0, hss]

/-- Witness for C2 at concrete inputs. -/
theorem jain_index_characteristic_values_witness :
    jain_index [some 2, some 2] = some 1 ∧
    jain_index [some 0, some 7, some 0] = some (1 / 3) ∧
    jain_index [some 0, none, some 0] = none := by
  refine ⟨?_, ?_, ?_⟩
  · exact jain_index_characteristic_values.1 [some 2, some 2] 2
      (by decide) (by norm_num) (by decide)
  · have h := jain_index_characteristic_values.2.1 1 1 7 (by norm_num)
    norm_num at h ⊢
    exact h
  · apply jain_index_characteristic_values.2.2 [some 0, none, some 0]
    intro q hq
    simp at hq
    exact hq

/-- C10: on every input series — negatives included — the Jain index is
either NaN (`none`) or a value in `[0, 1]`; no clamping is involved. -/
theorem jain_index_range (xs : List (Option ℚ)) :
    jain_index xs = none ∨ ∃ r : ℚ, jain_index xs = some r ∧ 0 ≤ r ∧ r ≤ 1 := by
  by_cases h0 : (finiteVals xs).length = 0
  · left; simp [jain_index, h0]
  · by_cases hss : ((finiteVals xs).map (fun x => x * x)).sum ≤ 0
    · left; simp [jain_index, h0, hss]
    · right
      set v := finiteVals xs
      have hsspos : 0 < (v.map (fun x => x * x)).sum := lt_of_not_le hss
      have hnpos : 0 < (v.length : ℚ) := by
        have : 0 < v.length := Nat.pos_of_ne_zero h0
        exact_mod_cast this
      refine ⟨v.sum * v.sum / ((v.length : ℚ) * (v.map (fun x => x * x)).sum),
        by simp [jain_index, h0, hss], ?_, ?_⟩
      · apply div_nonneg (mul_self_nonneg _)
        positivity
      · rw [div_le_one (by positivity)]
        simpa using list_sq_sum_le v

/-- Arithmetic mean of a list of rationals: models `x.mean()`. -/
def listMean (l : List ℚ) : ℚ :=
  l.sum / (l.length : ℚ)

/-- Sample variance with Bessel's correction (`ddof=1`):
`Σ (x - x̄)² / (n - 1)`, the square of `x.std(ddof=1)`. -/
def sampleVariance (l : List ℚ) : ℚ :=
  (l.map (fun x => (x - listMean l) ^ 2)).sum / ((l.length : ℚ) - 1)

/-- Sample standard deviation `x.std(ddof=1)` as a real number. -/
noncomputable def sampleStd (l : List ℚ) : ℝ :=
  Real.sqrt (sampleVariance l)

/-- Embedding of `mean_ci95` from `scripts/plot_p3.py` (the `plot_p4.py`
copy is identical except that it also returns `n`): drop NaNs and return
`(mean, mean - 1.96·s/√n, mean + 1.96·s/√n)`, with the interval collapsed
to the mean when `n == 1` and all-NaN (`none`) when `n == 0`. -/
noncomputable def mean_ci95 (xs : List (Option ℚ)) : Option ℝ × Option ℝ × Option ℝ :=
  let x := finiteVals xs
  if x.length = 0 then (none, none, none)
  else
    let m : ℝ := ((listMean x : ℚ) : ℝ)
    if x.length = 1 then (some m, some m, some m)
    else
      let se : ℝ := sampleStd x / Real.sqrt (x.length : ℝ)
      (some m, some (m - 1.96 * se), some (m + 1.96 * se))

/-- Embedding of `mean_std` from `scripts/plot_p8.py` / `plot_p5.py`:
`(NaN, NaN, 0)` on no finite values, `(v, 0, 1)` on a single value,
`(mean, std(ddof=1), n)` otherwise. -/
noncomputable def mean_std (xs : List (Option ℚ)) : Option ℝ × Option ℝ × ℕ :=
  let v := finiteVals xs
  if v.length = 0 then (none, none, 0)
  else if v.length = 1 then (some ((v.headI : ℚ) : ℝ), some 0, 1)
  else (some ((listMean v : ℚ) : ℝ), some (sampleStd v), v.length)

/-- C1: `mean_ci95` returns all-NaN on an empty series, a collapsed
interval equal to the mean when exactly one finite value is present, and
an interval bracketing the mean (`lo ≤ mean ≤ hi`) when `n ≥ 2`. -/
theorem mean_ci95_interval_bracket (xs : List (Option ℚ)) :
    ((finiteVals xs).length = 0 → mean_ci95 xs = (none, none, none)) ∧
    ((finiteVals xs).length = 1 →
      ∃ m : ℝ, mean_ci95 xs = (some m, some m, some m) ∧
        m = ((listMean (finiteVals xs) : ℚ) : ℝ)) ∧
    (2 ≤ (finiteVals xs).length →
      ∃ m lo hi : ℝ, mean_ci95 xs = (some m, some lo, some hi) ∧
        lo ≤ m ∧ m ≤ hi) := by
  refine ⟨?_, ?_, ?_⟩
  · intro h0
    simp [mean_ci95, h0]
  · intro h1
    refine ⟨((listMean (finiteVals xs) : ℚ) : ℝ), ?_, rfl⟩
    simp [mean_ci95, h1]
  · intro h2
    have h0 : ¬((finiteVals xs).length = 0) := by omega
    have h1 : ¬((finiteVals xs).length = 1) := by omega
    refine ⟨((listMean (finiteVals xs) : ℚ) : ℝ),
      ((listMean (finiteVals xs) : ℚ) : ℝ) -
        1.96 * (sampleStd (finiteVals xs) / Real.sqrt ((finiteVals xs).length : ℝ)),
      ((listMean (finiteVals xs) : ℚ) : ℝ) +
        1.96 * (sampleStd (finiteVals xs) / Real.sqrt ((finiteVals xs).length : ℝ)),
      by simp only [mean_ci95, if_neg h0, if_neg h1], ?_, ?_⟩
    all_goals
      have hse : (0 : ℝ) ≤ sampleStd (finiteVals xs) / Real.sqrt ((finiteVals xs).length : ℝ) :=
        div_nonneg (Real.sqrt_nonneg _) (Real.sqrt_nonneg _)
      nlinarith [hse]

/-- Witness for C1 at concrete inputs. -/
theorem mean_ci95_interval_bracket_witness :
    mean_ci95 [none] = (none, none, none) ∧
    (∃ m lo hi : ℝ, mean_ci95 [some 1, some 5, none] = (some m, some lo, some hi) ∧
      lo ≤ m ∧ m ≤ hi) := by
  constructor
  · exact (mean_ci95_interval_bracket [none]).1 (by decide)
  · exact (mean_ci95_interval_bracket [some 1, some 5, none]).2.2 (by decide)

/-- Casting a rational list sum to `ℝ` sums the cast list. -/
lemma cast_list_sum (l : List ℚ) :
    ((l.sum : ℚ) : ℝ) = (l.map (fun q : ℚ => (q : ℝ))).sum := by
  induction l with
  | nil => simp
  | cons a t ih =>
    simp only [List.sum_cons, List.map_cons]
    push_cast [ih]
    ring

/-- Casting the rational mean to `ℝ` gives the real mean of the cast list. -/
lemma cast_listMean (l : List ℚ) :
    ((listMean l : ℚ) : ℝ) =
      (l.map (fun q : ℚ => (q : ℝ))).sum / (((l.map (fun q : ℚ => (q : ℝ))).length : ℝ)) := by
  rw [listMean, Rat.cast_div, cast_list_sum]
  simp

/-- Casting the rational sample variance to `ℝ` gives the real sample
variance of the cast list. -/
lemma cast_sampleVariance (l : List ℚ) :
    ((sampleVariance l : ℚ) : ℝ) =
      ((l.map (fun q : ℚ => (q : ℝ))).map
          (fun x => (x - (l.map (fun q : ℚ => (q : ℝ))).sum /
            (((l.map (fun q : ℚ => (q : ℝ))).length : ℝ))) ^ 2)).sum /
        ((((l.map (fun q : ℚ => (q : ℝ))).length : ℝ)) - 1) := by
  have hM := cast_listMean l
  rw [sampleVariance, Rat.cast_div, cast_list_sum, List.map_map]
  congr 1
  · rw [List.map_map]
    congr 1
    apply List.map_congr_left
    intro q hq
    simp only [Function.comp_apply]
    push_cast
    rw [hM]
  · push_cast
    simp

/-- Sample standard deviation as the spec words it, over a real-valued
series: the square root of `Σ (x - mean)² / (n - 1)`. -/
noncomputable def besselStdR (l : List ℝ) : ℝ :=
  Real.sqrt ((l.map (fun x => (x - l.sum / (l.length : ℝ)) ^ 2)).sum /
    ((l.length : ℝ) - 1))

/-- C8 counterexample: with a single finite value (`n = 1 < 2`) `mean_std`
returns `stdDev = 0`, not NaN, so "stdDev is NaN if n < 2" fails. -/
theorem mean_std_single_value_not_nan :
    (finiteVals [some 5]).length < 2 ∧
    (mean_std [some 5]).2.1 = some 0 ∧ (mean_std [some 5]).2.1 ≠ none := by
  have h : (mean_std [some 5]).2.1 = some 0 := by
    simp [mean_std, finiteVals]
  exact ⟨by decide, h, by rw [h]; exact Option.some_ne_none 0⟩

/-- C8 (amended): the `stdDev` component of `mean_std` is NaN exactly when
there are no finite values, is `0` for a single finite value, and equals
the Bessel-corrected (`ddof=1`) sample standard deviation of the finite
values when `n ≥ 2`. -/
theorem mean_std_stdDev_characterisation (xs : List (Option ℚ)) :
    ((finiteVals xs).length = 0 → (mean_std xs).2.1 = none) ∧
    ((finiteVals xs).length = 1 → (mean_std xs).2.1 = some 0) ∧
    (2 ≤ (finiteVals xs).length →
      (mean_std xs).2.1 =
        some (besselStdR ((finiteVals xs).map (fun q : ℚ => (q : ℝ))))) := by
  refine ⟨?_, ?_, ?_⟩
  · intro h0
    simp [mean_std, h0]
  · intro h1
    simp [mean_std, h1]
  · intro h2
    have h0 : ¬((finiteVals xs).length = 0) := by omega
    have h1 : ¬((finiteVals xs).length = 1) := by omega
    simp only [mean_std, if_neg h0, if_neg h1]
    congr 1
    rw [sampleStd, besselStdR]
    congr 1
    exact cast_sampleVariance (finiteVals xs)

/-- Witness for the amended C8 at concrete inputs. -/
theorem mean_std_stdDev_characterisation_witness :
    (mean_std [some 3]).2.1 = some 0 ∧
    (mean_std [some 1, some 5]).2.1 =
      some (besselStdR ((finiteVals [some 1, some 5]).map (fun q : ℚ => (q : ℝ)))) := by
  constructor
  · exact (mean_std_stdDev_characterisation [some 3]).2.1 (by decide)
  · exact (mean_std_stdDev_characterisation [some 1, some 5]).2.2 (by decide)

/-- Median of a list as `np.median` / `np.nanmedian` computes it on its
non-NaN values: sort ascending, take the middle element for odd length and
the average of the two middle elements for even length. -/
def listMedian (l : List ℚ) : ℚ :=
  let s := l.insertionSort (· ≤ ·)
  if l.length % 2 = 1 then s.getD (l.length / 2) 0
  else (s.getD (l.length / 2 - 1) 0 + s.getD (l.length / 2) 0) / 2

/-- Embedding of `maybe_bps_to_mbps` from `scripts/plot_p8.py`: divide the
series by `1e6` when the lower-cased field name contains `"bps"` (the
redundant `endswith("_bps")` test is kept), otherwise exactly when the
median of the finite values exists and exceeds `1e4`; NaN entries stay NaN
under division and are ignored by the median. -/
def maybe_bps_to_mbps (series : List (Option ℚ)) (nameHint : List Char) :
    List (Option ℚ) :=
  let nh := nameHint.map Char.toLower
  if (['b', 'p', 's'] <:+: nh) ∨ (['_', 'b', 'p', 's'] <:+ nh) then
    series.map (Option.map (fun q => q / 1000000))
  else
    let arr := finiteVals series
    if arr.length = 0 then series
    else if listMedian arr > 10000 then series.map (Option.map (fun q => q / 1000000))
    else series

/-- The suffix test `endswith("_bps")` is subsumed by the substring test. -/
lemma suffix_bps_isInfix (nh : List Char) (h : ['_', 'b', 'p', 's'] <:+ nh) :
    ['b', 'p', 's'] <:+: nh :=
  List.IsSuffix.isInfix (List.IsSuffix.trans ⟨['_'], rfl⟩ h)

/-- C4: the unit coercer always divides by `1e6` when the lower-cased
declared name contains `"bps"`; otherwise it divides exactly when the
median of the finite values is above `1e4`, and returns the series
unchanged otherwise (in particular whenever no finite value exists). -/
theorem maybe_bps_to_mbps_decision_rule (series : List (Option ℚ)) (nameHint : List Char) :
    ((['b', 'p', 's'] <:+: nameHint.map Char.toLower) →
      maybe_bps_to_mbps series nameHint =
        series.map (Option.map (fun q => q / 1000000))) ∧
    (¬ (['b', 'p', 's'] <:+: nameHint.map Char.toLower) →
      ((finiteVals series ≠ [] → listMedian (finiteVals series) > 10000 →
          maybe_bps_to_mbps series nameHint =
            series.map (Option.map (fun q => q / 1000000))) ∧
       (finiteVals series = [] ∨ listMedian (finiteVals series) ≤ 10000 →
          maybe_bps_to_mbps series nameHint = series))) := by
  constructor
  · intro h
    simp only [maybe_bps_to_mbps, if_pos (Or.inl h)]
  · intro h
    have hcond : ¬ ((['b', 'p', 's'] <:+: nameHint.map Char.toLower) ∨
        (['_', 'b', 'p', 's'] <:+ nameHint.map Char.toLower)) := by
      rintro (hc | hc)
      · exact h hc
      · exact h (suffix_bps_isInfix _ hc)
    constructor
    · intro hne hmed
      have hlen : ¬ ((finiteVals series).length = 0) := by
        simpa [List.length_eq_zero] using hne
      simp only [maybe_bps_to_mbps, if_neg hcond, if_neg hlen, if_pos hmed]
    · rintro (hemp | hle)
      · have hlen : (finiteVals series).length = 0 := by simp [hemp]
        simp only [maybe_bps_to_mbps, if_neg hcond, if_pos hlen]
      · by_cases hlen : (finiteVals series).length = 0
        · simp only [maybe_bps_to_mbps, if_neg hcond, if_pos hlen]
        · simp only [maybe_bps_to_mbps, if_neg hcond, if_neg hlen,
            if_neg (not_lt.mpr hle)]

/-- Witness for C4 at concrete inputs. -/
theorem maybe_bps_to_mbps_decision_rule_witness :
    maybe_bps_to_mbps [some 5000000, none] ['r', 'x', 'B', 'p', 's'] =
      [some 5, none] ∧
    maybe_bps_to_mbps [some 20000, some 30000, none] ['r', 'a', 't', 'e'] =
      [some (1 / 50), some (3 / 100), none] ∧
    maybe_bps_to_mbps [some 20, some 30] ['r', 'a', 't', 'e'] = [some 20, some 30] := by
  refine ⟨?_, ?_, ?_⟩
  · have h := (maybe_bps_to_mbps_decision_rule [some 5000000, none]
      ['r', 'x', 'B', 'p', 's']).1 (by decide)
    rw [h]
    simp only [List.map_cons, List.map_nil, Option.map_some, Option.map_none]
    norm_num
  · have h := ((maybe_bps_to_mbps_decision_rule [some 20000, some 30000, none]
      ['r', 'a', 't', 'e']).2 (by decide)).1 (by decide)
      (by norm_num [listMedian, finiteVals, List.insertionSort, List.orderedInsert, List.filterMap_cons, List.filterMap_nil, id_eq])
    rw [h]
    simp only [List.map_cons, List.map_nil, Option.map_some, Option.map_none]
    norm_num
  · exact ((maybe_bps_to_mbps_decision_rule [some 20, some 30]
      ['r', 'a', 't', 'e']).2 (by decide)).2
      (Or.inr (by norm_num [listMedian, finiteVals, List.insertionSort, List.orderedInsert, List.filterMap_cons, List.filterMap_nil, id_eq]))

/-- Embedding of `pick_col` from `scripts/plot_p8.py` / `plot_p5.py`: the
first candidate present among the table's columns wins; a required field
with no matching candidate raises `ValueError` (modelled as `Except.error`
carrying the attempted candidates and the existing columns); an optional
field resolves to `none`. -/
def pick_col (columns : List String) (candidates : List String) (required : Bool) :
    Except (List String × List String) (Option String) :=
  match candidates.find? (fun c => columns.contains c) with
  | some c => Except.ok (some c)
  | none => if required then Except.error (candidates, columns) else Except.ok none

/-- C9: `pick_col` resolution — the first candidate (in priority order)
present among the table's columns wins; when no candidate is present, a
required field fails with an error naming the attempted candidates, and an
optional field resolves to no column. -/
theorem pick_col_resolution (columns : List String) (required : Bool) :
    (∀ (pre post : List String) (c : String),
      (∀ p ∈ pre, p ∉ columns) → c ∈ columns →
        pick_col columns (pre ++ c :: post) required = Except.ok (some c)) ∧
    (∀ candidates : List String, (∀ p ∈ candidates, p ∉ columns) →
      (pick_col columns candidates true = Except.error (candidates, columns) ∧
       pick_col columns candidates false = Except.ok none)) := by
  constructor
  · intro pre post c hpre hc
    have hfind : (pre ++ c :: post).find? (fun x => columns.contains x) = some c := by
      rw [List.find?_append]
      have h1 : pre.find? (fun x => columns.contains x) = none := by
        rw [List.find?_eq_none]
        intro p hp
        simpa using hpre p hp
      rw [h1, List.find?_cons_of_pos _ (by simpa using hc)]
      rfl
    simp only [pick_col, hfind]
  · intro candidates hnone
    have hfind : candidates.find? (fun x => columns.contains x) = none := by
      rw [List.find?_eq_none]
      intro p hp
      simpa using hnone p hp
    constructor <;> simp only [pick_col, hfind] <;> simp

/-- Witness for C9 at concrete inputs. -/
theorem pick_col_resolution_witness :
    pick_col ["distance_m", "goodput"] (["thr_bps"] ++ "goodput" :: ["thr"]) true =
      Except.ok (some ("goodput")) ∧
    pick_col ["distance_m"] ["thr_bps", "thr"] true =
      Except.error (["thr_bps", "thr"], ["distance_m"]) ∧
    pick_col ["distance_m"] ["thr_bps", "thr"] false = Except.ok none := by
  refine ⟨?_, ?_, ?_⟩
  · exact (pick_col_resolution ["distance_m", "goodput"] true).1
      ["thr_bps"] ["thr"] "goodput" (by decide) (by decide)
  · exact ((pick_col_resolution ["distance_m"] true).2
      ["thr_bps", "thr"] (by decide)).1
  · exact ((pick_col_resolution ["distance_m"] false).2
      ["thr_bps", "thr"] (by decide)).2

/-- The canonical column set `EXPECTED_COLS` of `scripts/plot_p3.py`. -/
def EXPECTED_COLS : List String :=
  ["distance_m", "transport", "propModel", "logExp", "refDist", "refLoss",
   "simTime", "appStart", "pktSize", "udpRate", "tcpMaxBytes", "seed", "run",
   "rxBytes", "goodput_Mbps", "rtt_mean_ms", "rtt_p95_ms", "rtt_samples"]

/-- Result of the initial header-based `pd.read_csv` that `read_sweep_csv`
inspects: the raw first line of the file and the parsed column names. -/
structure HeaderParse where
  firstLine : List Char
  columns : List String

/-- The literal ellipsis-token test `"..." in first_line`. -/
def hasEllipsis (l : List Char) : Bool :=
  decide (['.', '.', '.'] <:+: l)

/-- Embedding of the suspicious-header test of `read_sweep_csv`
(`scripts/plot_p3.py`): fall back to a headerless parse when the first
line contains `"..."`, or when `distance_m` is absent from the parsed
columns while the parsed column count equals `len(EXPECTED_COLS)`. -/
def read_sweep_fallback (p : HeaderParse) : Bool :=
  hasEllipsis p.firstLine ||
    (!(p.columns.contains ("distance_m")) && (p.columns.length == EXPECTED_COLS.length))

/-- The fallback condition as the claim words it: ellipsis in the first
line, or the parsed column count does NOT match the expected canonical
count while `distance_m` is absent. -/
def claimed_fallback (p : HeaderParse) : Bool :=
  hasEllipsis p.firstLine ||
    (!(p.columns.length == EXPECTED_COLS.length) && !(p.columns.contains ("distance_m")))

/-- C3 counterexample: a parse with exactly the canonical number of
columns (18) but with `"distance"` in place of `"distance_m"` and no
ellipsis in the first line.  The code falls back; the claim, which
requires the column count to differ from the canonical count, says it
must not. -/
theorem read_sweep_fallback_count_match_counterexample :
    read_sweep_fallback ⟨['d', 'i', 's', 't'], "distance" :: EXPECTED_COLS.tail⟩ = true ∧
    claimed_fallback ⟨['d', 'i', 's', 't'], "distance" :: EXPECTED_COLS.tail⟩ = false := by
  decide

/-- C3 (amended): the header-based parse is treated as suspicious, and the
reader falls back to a headerless parse, exactly when (a) the first line
contains the literal ellipsis token or (b) the parsed column count equals
the expected canonical column count while the required key column
`distance_m` is absent from the parsed columns. -/
theorem read_sweep_fallback_characterisation (p : HeaderParse) :
    read_sweep_fallback p = true ↔
      (['.', '.', '.'] <:+: p.firstLine) ∨
        ("distance_m" ∉ p.columns ∧ p.columns.length = EXPECTED_COLS.length) := by
  simp [read_sweep_fallback, hasEllipsis]

/-- Configuration of one `save_figure_safe` call: whether the optional
`kaleido` rendering backend imports, the `strict_png` flag, and the
`max_retries` bound. -/
structure WriterConfig where
  kaleidoAvailable : Bool
  strictPng : Bool
  maxRetries : ℕ

/-- Outcome of one `save_figure_safe` call: whether it raised, whether the
HTML artifact was written, whether the PNG artifact was written, and how
many PNG export attempts ran. -/
structure WriteResult where
  raised : Bool
  htmlWritten : Bool
  pngWritten : Bool
  attempts : ℕ
deriving DecidableEq

/-- The PNG retry loop `for _ in range(max_retries)` of `save_figure_safe`:
`succ i` says whether the `i`-th export attempt succeeds.  Returns whether
some attempt succeeded together with the number of attempts performed (the
loop returns at the first success). -/
def runRetries (succ : ℕ → Bool) : ℕ → ℕ → Bool × ℕ
  | 0, _ => (false, 0)
  | n + 1, i =>
    if succ i then (true, 1)
    else
      let r := runRetries succ n (i + 1)
      (r.1, r.2 + 1)

/-- Embedding of `save_figure_safe` from `scripts/plot_p3.py` (the
`plot_p2.py` copy differs only in logging): the HTML export is written
first, unconditionally; if the `kaleido` backend imports, the PNG export
is attempted up to `maxRetries` times with a sleep between attempts, and
exhausting the retries raises only under `strict_png`; a missing backend
is a distinct, non-retried condition that raises only under `strict_png`. -/
def save_figure_safe (cfg : WriterConfig) (succ : ℕ → Bool) : WriteResult :=
  if cfg.kaleidoAvailable then
    let r := runRetries succ cfg.maxRetries 0
    if r.1 then ⟨false, true, true, r.2⟩
    else if cfg.strictPng then ⟨true, true, false, r.2⟩
    else ⟨false, true, false, r.2⟩
  else if cfg.strictPng then ⟨true, true, false, 0⟩
  else ⟨false, true, false, 0⟩

/-- The retry loop performs at most `n` attempts. -/
lemma runRetries_attempts_le (succ : ℕ → Bool) (n i : ℕ) :
    (runRetries succ n i).2 ≤ n := by
  induction n generalizing i with
  | zero => simp [runRetries]
  | succ k ih =>
    by_cases h : succ i
    · simp [runRetries, h]
    · simp only [runRetries, if_neg h]
      exact Nat.succ_le_succ (ih (i + 1))

/-- The retry loop succeeds iff some attempt with index below the bound
succeeds. -/
lemma runRetries_success_iff (succ : ℕ → Bool) (n i : ℕ) :
    (runRetries succ n i).1 = true ↔ ∃ j, j < n ∧ succ (i + j) = true := by
  induction n generalizing i with
  | zero => simp [runRetries]
  | succ k ih =>
    by_cases h : succ i
    · simp only [runRetries, if_pos h]
      exact ⟨fun _ => ⟨0, Nat.succ_pos k, by simpa using h⟩, fun _ => trivial⟩
    · simp only [runRetries, if_neg h]
      rw [ih (i + 1)]
      constructor
      · rintro ⟨j, hj, hs⟩
        exact ⟨j + 1, by omega, by rw [show i + (j + 1) = i + 1 + j by omega]; exact hs⟩
      · rintro ⟨j, hj, hs⟩
        match j with
        | 0 =>
          exact absurd (by simpa using hs) (by simpa using h)
        | j + 1 =>
          exact ⟨j, by omega, by rw [show i + 1 + j = i + (j + 1) by omega]; exact hs⟩

/-- C5: with the backend available, a PNG export failing on the first two
attempts and succeeding on the third returns overall success after exactly
3 attempts (the default `max_retries = 3`); in general at most
`maxRetries` attempts run, and the PNG is written iff some attempt within
that bound succeeds. -/
theorem save_figure_safe_retry_bound (cfg : WriterConfig) (succ : ℕ → Bool) :
    (cfg.kaleidoAvailable = true → cfg.maxRetries = 3 →
      succ 0 = false → succ 1 = false → succ 2 = true →
      save_figure_safe cfg succ = ⟨false, true, true, 3⟩) ∧
    (cfg.kaleidoAvailable = true →
      ((save_figure_safe cfg succ).attempts ≤ cfg.maxRetries ∧
       ((save_figure_safe cfg succ).pngWritten = true ↔
          ∃ j, j < cfg.maxRetries ∧ succ j = true))) := by
  constructor
  · intro hk hm h0 h1 h2
    have hr : runRetries succ 3 0 = (true, 3) := by
      simp [runRetries, h0, h1, h2]
    simp only [save_figure_safe, hk, if_true, hm, hr]
  · intro hk
    have hb := runRetries_attempts_le succ cfg.maxRetries 0
    have hs := runRetries_success_iff succ cfg.maxRetries 0
    simp only [zero_add] at hs
    by_cases hr : (runRetries succ cfg.maxRetries 0).1 = true
    · simp only [save_figure_safe, hk, if_true, if_pos hr]
      exact ⟨hb, by simpa [hr] using hs⟩
    · have hneg := hr
      by_cases hp : cfg.strictPng = true
      · simp only [save_figure_safe, hk, if_true, if_neg hr, if_pos hp]
        refine ⟨hb, ?_⟩
        constructor
        · intro hfalse
          simp at hfalse
        · intro hex
          exact absurd (hs.mpr hex) hneg
      · simp only [save_figure_safe, hk, if_true, if_neg hr, if_neg hp]
        refine ⟨hb, ?_⟩
        constructor
        · intro hfalse
          simp at hfalse
        · intro hex
          exact absurd (hs.mpr hex) hneg

/-- Witness for C5: two forced failures, success on the third attempt. -/
theorem save_figure_safe_retry_bound_witness :
    save_figure_safe ⟨true, false, 3⟩ (fun i => decide (2 ≤ i)) =
      ⟨false, true, true, 3⟩ :=
  (save_figure_safe_retry_bound ⟨true, false, 3⟩ (fun i => decide (2 ≤ i))).1
    rfl rfl (by decide) (by decide) (by decide)

/-- C6: under permanent PNG failure (every attempt within the bound fails)
or an unavailable backend, `strict_png = false` leaves the call unraised
with the HTML written and the PNG not; `strict_png = true` makes the call
raise, the HTML still having been written first. -/
theorem save_figure_safe_strict_mode (cfg : WriterConfig) (succ : ℕ → Bool) :
    (cfg.kaleidoAvailable = true → (∀ j, j < cfg.maxRetries → succ j = false) →
      ((cfg.strictPng = false →
         (save_figure_safe cfg succ).raised = false ∧
         (save_figure_safe cfg succ).htmlWritten = true ∧
         (save_figure_safe cfg succ).pngWritten = false) ∧
       (cfg.strictPng = true →
         (save_figure_safe cfg succ).raised = true ∧
         (save_figure_safe cfg succ).htmlWritten = true))) ∧
    (cfg.kaleidoAvailable = false →
      ((cfg.strictPng = false →
         (save_figure_safe cfg succ).raised = false ∧
         (save_figure_safe cfg succ).htmlWritten = true ∧
         (save_figure_safe cfg succ).pngWritten = false) ∧
       (cfg.strictPng = true →
         (save_figure_safe cfg succ).raised = true ∧
         (save_figure_safe cfg succ).htmlWritten = true))) := by
  constructor
  · intro hk hfail
    have hr : (runRetries succ cfg.maxRetries 0).1 = false := by
      rw [Bool.eq_false_iff]
      intro h
      obtain ⟨j, hj, hs⟩ := (runRetries_success_iff succ cfg.maxRetries 0).mp h
      rw [zero_add] at hs
      rw [hfail j hj] at hs
      cases hs
    constructor
    · intro hp
      simp only [save_figure_safe, hk, if_true, hr, Bool.false_eq_true,
        if_false, hp]
      exact ⟨trivial, trivial, trivial⟩
    · intro hp
      simp only [save_figure_safe, hk, if_true, hr, Bool.false_eq_true,
        if_false, hp, if_true]
      exact ⟨trivial, trivial⟩
  · intro hk
    constructor
    · intro hp
      simp only [save_figure_safe, hk, Bool.false_eq_true, if_false, hp]
      exact ⟨trivial, trivial, trivial⟩
    · intro hp
      simp only [save_figure_safe, hk, Bool.false_eq_true, if_false, hp, if_true]
      exact ⟨trivial, trivial⟩

/-- Witness for C6: permanent failure non-strict, and a missing backend
under strict mode. -/
theorem save_figure_safe_strict_mode_witness :
    ((save_figure_safe ⟨true, false, 2⟩ (fun _ => false)).raised = false ∧
     (save_figure_safe ⟨true, false, 2⟩ (fun _ => false)).htmlWritten = true ∧
     (save_figure_safe ⟨true, false, 2⟩ (fun _ => false)).pngWritten = false) ∧
    ((save_figure_safe ⟨false, true, 2⟩ (fun _ => false)).raised = true ∧
     (save_figure_safe ⟨false, true, 2⟩ (fun _ => false)).htmlWritten = true) := by
  constructor
  · exact ((save_figure_safe_strict_mode ⟨true, false, 2⟩ (fun _ => false)).1
      rfl (fun j hj => rfl)).1 rfl
  · exact ((save_figure_safe_strict_mode ⟨false, true, 2⟩ (fun _ => false)).2
      rfl).2 rfl

/-- A filesystem path split into directory and base name, mirroring the
writer's use of `path.parent` and the file name. -/
structure Loc where
  dir : String
  base : String
deriving DecidableEq

/-- Filesystem contents: each location may hold a finished payload (a list
of bytes for `_atomic_write_bytes`, of characters for
`_atomic_write_text`). -/
def FS (β : Type) : Type :=
  Loc → Option (List β)

/-- Steps the writer performs against the filesystem. -/
inductive FsOp (β : Type) where
  | create (p : Loc)
  | append (p : Loc) (chunk : List β)
  | rename (src : Loc) (dst : Loc)

/-- Effect of one step: `create` makes an empty file, `append` extends an
existing one, `rename` atomically replaces the destination with the source
and removes the source (`Path.replace`). -/
def applyOp {β : Type} (fs : FS β) : FsOp β → FS β
  | .create p => fun q => if q = p then some [] else fs q
  | .append p chunk => fun q => if q = p then some ((fs p).getD [] ++ chunk) else fs q
  | .rename src dst => fun q =>
      if q = dst then fs src
      else if q = src then none
      else fs q

/-- Run a list of steps left to right. -/
def runOps {β : Type} (fs : FS β) (ops : List (FsOp β)) : FS β :=
  ops.foldl applyOp fs

/-- Trace of `_atomic_write_bytes` / `_atomic_write_text` from
`scripts/plot_p2.py` / `plot_p3.py`: create a `NamedTemporaryFile` in the
target's own directory, write the whole payload to it (in one or more
chunks), then `Path(tmp.name).replace(path)` over the target. -/
def atomicWriteTrace {β : Type} (target : Loc) (tmpBase : String)
    (chunks : List (List β)) : List (FsOp β) :=
  let tmp : Loc := ⟨target.dir, tmpBase⟩
  FsOp.create tmp :: (chunks.map (FsOp.append tmp) ++ [FsOp.rename tmp target])

lemma runOps_nil {β : Type} (fs : FS β) : runOps fs [] = fs :=
  rfl

lemma runOps_cons {β : Type} (fs : FS β) (op : FsOp β) (ops : List (FsOp β)) :
    runOps fs (op :: ops) = runOps (applyOp fs op) ops :=
  rfl

/-- Steps that only create or append the temporary file leave every other
location untouched. -/
lemma runOps_touch_only_tmp {β : Type} (ops : List (FsOp β)) (fs : FS β)
    (tmp target : Loc) (htmp : tmp ≠ target)
    (hops : ∀ op ∈ ops, op = FsOp.create tmp ∨ ∃ c, op = FsOp.append tmp c) :
    runOps fs ops target = fs target := by
  induction ops generalizing fs with
  | nil => rfl
  | cons op t ih =>
    have h1 := hops op (by simp)
    have h2 : applyOp fs op target = fs target := by
      have hne : ¬(target = tmp) := fun h => htmp h.symm
      rcases h1 with h | ⟨c, h⟩ <;> subst h <;> simp [applyOp, hne]
    rw [runOps_cons, ih (applyOp fs op) (fun op hop => hops op (by simp [hop])), h2]

/-- Appending chunks to the temporary file accumulates the payload. -/
lemma runOps_append_chunks {β : Type} (chunks : List (List β)) (fs : FS β)
    (tmp : Loc) (acc : List β) (hacc : fs tmp = some acc) :
    runOps fs (chunks.map (FsOp.append tmp)) tmp = some (acc ++ chunks.flatten) := by
  induction chunks generalizing fs acc with
  | nil =>
    simpa [runOps_nil] using hacc
  | cons c t ih =>
    rw [List.map_cons, runOps_cons]
    have hstep : (applyOp fs (FsOp.append tmp c)) tmp = some (acc ++ c) := by
      simp [applyOp, hacc]
    rw [ih (applyOp fs (FsOp.append tmp c)) (acc ++ c) hstep]
    simp

/-- C7: every atomic write creates its temporary file in the target's own
directory, leaves the target holding exactly its previous contents after
every proper prefix of the trace (a reader never sees a truncated
payload), and leaves the complete payload at the target after the full
trace. -/
theorem atomic_write_no_truncation {β : Type} (fs : FS β) (target : Loc)
    (tmpBase : String) (chunks : List (List β)) (hfresh : tmpBase ≠ target.base) :
    (Loc.mk target.dir tmpBase).dir = target.dir ∧
    (∀ n, n < (atomicWriteTrace target tmpBase chunks).length →
      runOps fs ((atomicWriteTrace target tmpBase chunks).take n) target = fs target) ∧
    runOps fs (atomicWriteTrace target tmpBase chunks) target = some chunks.flatten := by
  have htmp : (Loc.mk target.dir tmpBase) ≠ target := by
    intro h
    exact hfresh (congrArg Loc.base h)
  refine ⟨rfl, ?_, ?_⟩
  · intro n hn
    match n with
    | 0 => rfl
    | m + 1 =>
      have hm : m ≤ (chunks.map (FsOp.append (Loc.mk target.dir tmpBase))).length := by
        simp only [atomicWriteTrace, List.length_cons, List.length_append,
          List.length_map, List.length_nil] at hn
        simp only [List.length_map]
        omega
      have htake : (atomicWriteTrace target tmpBase chunks).take (m + 1) =
          FsOp.create (Loc.mk target.dir tmpBase) ::
            (chunks.map (FsOp.append (Loc.mk target.dir tmpBase))).take m := by
        simp only [atomicWriteTrace, List.take_succ_cons]
        rw [List.take_append_of_le_length hm]
      rw [htake]
      apply runOps_touch_only_tmp _ _ _ _ htmp
      intro op hop
      rcases List.mem_cons.mp hop with h | h
      · exact Or.inl h
      · have := List.take_subset m _ h
        obtain ⟨c, _, hc⟩ := List.mem_map.mp this
        exact Or.inr ⟨c, hc.symm⟩
  · have hsplit : atomicWriteTrace target tmpBase chunks =
        (FsOp.create (Loc.mk target.dir tmpBase) ::
          chunks.map (FsOp.append (Loc.mk target.dir tmpBase))) ++
        [FsOp.rename (Loc.mk target.dir tmpBase) target] := by
      simp [atomicWriteTrace]
    rw [hsplit, runOps, List.foldl_append]
    have hpre : List.foldl applyOp fs
        (FsOp.create (Loc.mk target.dir tmpBase) ::
          chunks.map (FsOp.append (Loc.mk target.dir tmpBase)))
        (Loc.mk target.dir tmpBase) = some chunks.flatten := by
      have hcreate : (applyOp fs (FsOp.create (Loc.mk target.dir tmpBase)))
          (Loc.mk target.dir tmpBase) = some [] := by
        simp [applyOp]
      have := runOps_append_chunks chunks
        (applyOp fs (FsOp.create (Loc.mk target.dir tmpBase)))
        (Loc.mk target.dir tmpBase) [] hcreate
      simpa [runOps] using this
    simp only [List.foldl_cons, List.foldl_nil]
    show (applyOp _ (FsOp.rename (Loc.mk target.dir tmpBase) target)) target =
      some chunks.flatten
    simp only [applyOp, if_pos rfl]
    simpa [runOps] using hpre

/-- Witness for C7 at a concrete trace: target previously absent, payload
written in two chunks. -/
theorem atomic_write_no_truncation_witness :
    runOps (fun _ => (none : Option (List ℕ)))
        ((atomicWriteTrace ⟨"plots", "fig.png"⟩ "tmp123" [[1, 2], [3]]).take 2)
        ⟨"plots", "fig.png"⟩ = none ∧
    runOps (fun _ => (none : Option (List ℕ)))
        (atomicWriteTrace ⟨"plots", "fig.png"⟩ "tmp123" [[1, 2], [3]])
        ⟨"plots", "fig.png"⟩ = some [1, 2, 3] := by
  constructor
  · exact (atomic_write_no_truncation (fun _ => none) ⟨"plots", "fig.png"⟩
      "tmp123" [[1, 2], [3]] (by decide)).2.1 2 (by decide)
  · exact (atomic_write_no_truncation (fun _ => none) ⟨"plots", "fig.png"⟩
      "tmp123" [[1, 2], [3]] (by decide)).2.2
